import Mathlib

/-!
Verification of the modelsandbox computation-graph engine.

The repository contains several drafts of the same engine.  This file embeds
the drafts that the specification describes:

* `modelsandbox/model/processors.py` (`FunctionProcessor`, `SchemaProcessor`,
  identical in algorithm to `modelsandbox_old/processors.py`);
* the `Sequence`/`ModelSequence` analyze loop of `modelsandbox/model/base.py`
  (lines 403-427) and `modelsandbox/model/structure.py` (lines 170-194);
* the `ModelLayer` analyze loop of `modelsandbox/model/structure.py`
  (lines 389-421) and `modelsandbox/model/layer.py` (lines 286-322);
* the `Container` draft of `modelsandbox/model/containers.py`.

Python values flowing through the engine are modelled by `Val` (integers,
strings and insertion-ordered dictionaries); Python dictionaries are
association lists whose update follows CPython semantics (overwrite in place,
append new keys).  Fallible evaluation is modelled with `Except Err`.
Error kinds follow the taxonomy of the specification, section 7, which states
that kinds, not concrete Python exception types, are specified:
`Err.missingParam` stands for the KeyError/TypeError raised when a declared
parameter is absent, `Err.schemaLookup` for the ValueError
("Unable to satisfy test ...") raised by schema traversal, `Err.typeError`
for Python TypeErrors raised by keyword binding, `Err.keyError` and
`Err.attrError` for raw KeyError/AttributeError escaping the tag-grouping
code.
-/

/-- Python value: integer, string, or insertion-ordered dictionary.
Dictionary keys are themselves values because schema data mappings may be
keyed by numbers or strings. -/
inductive Val where
  | vint (n : Int)
  | vstr (s : String)
  | vdict (es : List (Val × Val))
deriving Repr

mutual

/-- Equality test on values, mirroring Python `==` on the fragment used by the
engine (numbers, strings, dicts; values of different kinds are unequal). -/
def Val.beq : Val → Val → Bool
  | .vint a, .vint b => a == b
  | .vstr a, .vstr b => a == b
  | .vdict a, .vdict b => Val.beqList a b
  | _, _ => false

/-- Entrywise equality test on dictionary entry lists. -/
def Val.beqList : List (Val × Val) → List (Val × Val) → Bool
  | [], [] => true
  | (k1, v1) :: t1, (k2, v2) :: t2 => Val.beq k1 k2 && Val.beq v1 v2 && Val.beqList t1 t2
  | _, _ => false

end

mutual

theorem Val.beq_iff : ∀ a b : Val, Val.beq a b = true ↔ a = b
  | .vint a, .vint b => by simp [Val.beq]
  | .vstr a, .vstr b => by simp [Val.beq]
  | .vdict a, .vdict b => by simp [Val.beq, Val.beqList_iff a b]
  | .vint _, .vstr _ => by simp [Val.beq]
  | .vint _, .vdict _ => by simp [Val.beq]
  | .vstr _, .vint _ => by simp [Val.beq]
  | .vstr _, .vdict _ => by simp [Val.beq]
  | .vdict _, .vint _ => by simp [Val.beq]
  | .vdict _, .vstr _ => by simp [Val.beq]

theorem Val.beqList_iff : ∀ a b : List (Val × Val), Val.beqList a b = true ↔ a = b
  | [], [] => by simp [Val.beqList]
  | [], (_, _) :: _ => by simp [Val.beqList]
  | (_, _) :: _, [] => by simp [Val.beqList]
  | (k1, v1) :: t1, (k2, v2) :: t2 => by
    simp [Val.beqList, Val.beq_iff k1 k2, Val.beq_iff v1 v2, Val.beqList_iff t1 t2,
      and_assoc]

end

instance : DecidableEq Val := fun a b => decidable_of_iff _ (Val.beq_iff a b)

theorem Val.beq_refl (a : Val) : Val.beq a a = true := (Val.beq_iff a a).mpr rfl

/-- Python dictionary: association list in insertion order. -/
abbrev Dict := List (Val × Val)

/-- Error kinds raised by the engine (specification section 7 taxonomy). -/
inductive Err where
  | missingParam (param : String)
  | schemaLookup (param : String)
  | typeError (msg : String)
  | keyError (key : String)
  | attrError (key : String)
deriving Repr, DecidableEq

instance {ε α : Type} [DecidableEq ε] [DecidableEq α] : DecidableEq (Except ε α) := fun a b =>
  match a, b with
  | .ok x, .ok y =>
    decidable_of_iff (x = y) (by constructor <;> (intro h; first | rw [h] | injection h))
  | .error x, .error y =>
    decidable_of_iff (x = y) (by constructor <;> (intro h; first | rw [h] | injection h))
  | .ok _, .error _ => isFalse (by intro h; injection h)
  | .error _, .ok _ => isFalse (by intro h; injection h)

/-- Lookup `d[k]`: value of the first entry whose key equals `k`. -/
def dictGet (d : Dict) (k : Val) : Option Val :=
  (d.find? (fun p => Val.beq p.1 k)).map (·.2)

/-- Membership test `k in d` on dictionary keys. -/
def dictHasKey (d : Dict) (k : Val) : Bool :=
  d.any (fun p => Val.beq p.1 k)

/-- Assignment `d[k] = v`: overwrite in place if the key is present, append
otherwise (CPython insertion-order semantics). -/
def dictSet (d : Dict) (k v : Val) : Dict :=
  if dictHasKey d k then d.map (fun p => if Val.beq p.1 k then (p.1, v) else p)
  else d ++ [(k, v)]

/-- Update `d.update(other)`: assign every entry of `other` into `d` in order. -/
def dictUpdate (d other : Dict) : Dict :=
  other.foldl (fun a p => dictSet a p.1 p.2) d

/-- Keys of a dictionary in stored order. -/
def dictKeys (d : Dict) : List Val := d.map (·.1)

/-- Filter comprehension `{k: v for k, v in d.items() if k in names}` used by
layer/container analyze to restrict a value set to a member's parameters.
A key matches when it equals the string `s` for some name `s` in `names`
(Python `in` uses `==`, so non-string keys never match a name list). -/
def filterParams (d : Dict) (names : List String) : Dict :=
  d.filter (fun p => names.any (fun s => Val.beq p.1 (.vstr s)))

/-- Removal loop `for h in hidden: results.pop(h, None)` of
`Container.analyze`: drop every entry whose key is one of the hidden names. -/
def popHidden (d : Dict) (hiddenNames : List String) : Dict :=
  d.filter (fun p => !hiddenNames.any (fun h => Val.beq p.1 (.vstr h)))

/-- Value of a decimal digit character, if any. -/
def digitVal (c : Char) : Option Nat :=
  if 48 ≤ c.toNat && c.toNat ≤ 57 then some (c.toNat - 48) else none

/-- Parse a nonempty all-digit character list as a natural number. -/
def parseDigits : List Char → Option Nat
  | [] => none
  | [c] => digitVal c
  | c :: rest => do
    let d ← digitVal c
    let r ← parseDigits rest
    pure (d * 10 ^ rest.length + r)

/-- Parse an optionally signed integer literal string. -/
def parseIntStr (s : String) : Option Int :=
  match s.toList with
  | '-' :: rest => (parseDigits rest).map (fun n => -(n : Int))
  | l => (parseDigits l).map (fun n => (n : Int))

/-- Numeric reading `float(key)` used by schema comparison actions, restricted
to the integral values the engine is exercised with: integers convert to
themselves and strings parse as integer literals; anything else (including
non-numeric strings) raises, which the caller turns into a lookup error. -/
def toNum : Val → Option Int
  | .vint n => some n
  | .vstr s => parseIntStr s
  | _ => none

/-- Membership-canonical image of `list(set(l))` for name lists.  CPython
iterates a set in hash order; only membership in these lists is ever
consulted by the engine (`in` tests and set algebra), so the embedding keeps
the first occurrence of each name. -/
def pySet (l : List String) : List String := l.dedup

/-- Ordering used by Python `sorted` on strings: lexicographic by code point. -/
def chListLe : List Char → List Char → Bool
  | [], _ => true
  | _ :: _, [] => false
  | a :: as, b :: bs =>
    if a.toNat < b.toNat then true
    else if b.toNat < a.toNat then false
    else chListLe as bs

/-- Boolean string comparison backing `sorted`. -/
def strLeB (a b : String) : Bool := chListLe a.toList b.toList

/-- Insert a string into an already sorted list. -/
def insSorted (x : String) : List String → List String
  | [] => [x]
  | y :: ys => if strLeB x y then x :: y :: ys else y :: insSorted x ys

/-- Insertion sort on strings (structural, kernel-computable). -/
def sortStrs (l : List String) : List String := l.foldr insSorted []

/-- Image of `sorted(set(l))` used by the `containers.py` draft. -/
def pySortedSet (l : List String) : List String := sortStrs l.dedup

theorem mem_insSorted {x a : String} {l : List String} :
    a ∈ insSorted x l ↔ a = x ∨ a ∈ l := by
  induction l with
  | nil => simp [insSorted]
  | cons y ys ih =>
    by_cases h : strLeB x y = true
    · simp [insSorted, h]
    · simp only [insSorted, h, Bool.false_eq_true, if_false, List.mem_cons, ih]
      tauto

theorem mem_sortStrs {a : String} {l : List String} : a ∈ sortStrs l ↔ a ∈ l := by
  induction l with
  | nil => simp [sortStrs]
  | cons y ys ih => simp [sortStrs, List.foldr_cons, mem_insSorted]; rw [← sortStrs]; tauto

theorem mem_pySortedSet {a : String} {l : List String} : a ∈ pySortedSet l ↔ a ∈ l := by
  unfold pySortedSet; rw [mem_sortStrs, List.mem_dedup]

theorem mem_pySet {a : String} {l : List String} : a ∈ pySet l ↔ a ∈ l := List.mem_dedup

/-!
Processors (`modelsandbox/model/processors.py`, algorithmically identical to
`modelsandbox_old/processors.py`).
-/

/-- Function processor (`FunctionProcessor`): a label, tags, the wrapped
callable's formal argument names in declared order (`params` reads
`co_varnames[:co_argcount]` of the code object), and the callable itself,
modelled as a pure function of the argument values in declared order. -/
structure FuncProc where
  label : String
  tags : List String
  argNames : List String
  impl : List Val → Val

/-- Parameter list of a function processor (`FunctionProcessor.params`). -/
def fprocParams (f : FuncProc) : List String := f.argNames

/-- Return list of a function processor (`FunctionProcessor.returns`). -/
def fprocReturns (f : FuncProc) : List String := [f.label]

/-- CPython keyword call `f(**kw)` for a function without defaults or
catch-all parameters: a non-string key or a key that is not a formal argument
name raises TypeError (unexpected keyword argument); a formal argument with
no binding raises TypeError naming that argument, which is the
missing-parameter error kind of the specification; otherwise the body runs on
the values bound by name. -/
def pyCall (f : FuncProc) (kw : Dict) : Except Err Val :=
  match kw.find? (fun p => match p.1 with
      | .vstr s => !f.argNames.contains s
      | _ => true) with
  | some (.vstr s, _) => .error (.typeError s)
  | some _ => .error (.typeError "keywords must be strings")
  | none =>
    match f.argNames.find? (fun a => (dictGet kw (.vstr a)).isNone) with
    | some a => .error (.missingParam a)
    | none => .ok (f.impl (f.argNames.map (fun a => (dictGet kw (.vstr a)).getD (.vint 0))))

/-- Function processor analyze: `return {self._label: self._callable_(**params)}`
(`processors.py` lines 108-109).  No filtering of the incoming values happens
here; the full value set is handed to the callable. -/
def fprocAnalyze (f : FuncProc) (vals : Dict) : Except Err Dict :=
  (pyCall f vals).map (fun v => [(.vstr f.label, v)])

/-- Schema actions recognised by `_VALID_SCHEMA_ACTIONS`. -/
inductive SAction where
  | get | lt | gt | lte | gte
deriving Repr, DecidableEq

/-- Schema processor (`SchemaProcessor`): validated schema fields.  The
`params`/`actions` lists have equal length and every action is recognised,
which `_validate_schema` enforces at construction. -/
structure SchemaProc where
  label : String
  tags : List String
  params : List String
  actions : List SAction
  data : Val

/-- Comparator selected for a comparison action (`a < b`, `a > b`, `a <= b`,
`a >= b`); the first operand is the parameter value, the second the key. -/
def cmpTest : SAction → Int → Int → Bool
  | .lt, a, b => a < b
  | .gt, a, b => a > b
  | .lte, a, b => a ≤ b
  | .gte, a, b => a ≥ b
  | .get, _, _ => false

/-- Comparison scan `for key, val in data.items(): if tester(value, float(key)):
data = val; break` followed by `assert SUCCESS`: keys are tested in stored
order, descending into the value of the first key satisfying the comparator;
a key (or value) that does not convert to a number raises inside the loop and
exhausting all keys fails the assertion — both are caught by the surrounding
`except` and re-raised as the schema lookup error. -/
def compScan (param : String) (c : SAction) (v : Val) : List (Val × Val) → Except Err Val
  | [] => .error (.schemaLookup param)
  | (k, d) :: rest =>
    match toNum v, toNum k with
    | some a, some b => if cmpTest c a b then .ok d else compScan param c v rest
    | _, _ => .error (.schemaLookup param)

/-- One action of the schema traversal loop.  For `get`, a missing key or a
non-dictionary cursor raises and is re-raised as the lookup error; for a
comparison the cursor must be a dictionary and is scanned with `compScan`. -/
def schemaStep (param : String) (a : SAction) (v data : Val) : Except Err Val :=
  match a with
  | .get =>
    match data with
    | .vdict es =>
      match dictGet es v with
      | some d => .ok d
      | none => .error (.schemaLookup param)
    | _ => .error (.schemaLookup param)
  | c =>
    match data with
    | .vdict es => compScan param c v es
    | _ => .error (.schemaLookup param)

/-- Main traversal loop of `SchemaProcessor.analyze`: for each
`(parameter, action)` pair in declared order, pull the parameter value
(missing raises the missing-parameter KeyError) and apply the action to the
cursor. -/
def schemaGo (vals : Dict) : List (String × SAction) → Val → Except Err Val
  | [], data => .ok data
  | (p, a) :: rest, data =>
    match dictGet vals (.vstr p) with
    | none => .error (.missingParam p)
    | some v =>
      match schemaStep p a v data with
      | .ok d => schemaGo vals rest d
      | .error e => .error e

/-- Final step of `SchemaProcessor.analyze`: a dictionary cursor is returned
verbatim, a scalar cursor is wrapped as `{label: cursor}`. -/
def schemaFinalize (label : String) : Val → Dict
  | .vdict es => es
  | v => [(.vstr label, v)]

/-- Schema processor analyze (`processors.py` lines 283-332). -/
def schemaAnalyze (s : SchemaProc) (vals : Dict) : Except Err Dict :=
  match schemaGo vals (s.params.zip s.actions) s.data with
  | .ok d => .ok (schemaFinalize s.label d)
  | .error e => .error e

/-- First stored value of a dictionary cursor (`list(data.values())[0]`). -/
def firstVal : Val → Option Val
  | .vdict ((_, d) :: _) => some d
  | _ => none

/-- Repeated first-branch descent used by the `returns` property. -/
def descendFirst : Val → List String → Option Val
  | d, [] => some d
  | d, _ :: ps => (firstVal d).bind (fun d2 => descendFirst d2 ps)

/-- Return list of a schema processor (`SchemaProcessor.returns`): descend the
data through the first stored branch once per declared parameter; a
dictionary leaf yields its keys, a scalar leaf yields `[label]`.  String keys
name the returned values; the Python property would return non-string keys as
well, but every aggregate they feed into sorts mixed-type name sets, which
raises in Python 3, so the embedding collects the string keys (the only
non-crashing case).  Malformed data over which the Python property raises is
mapped to the empty list and never exercised. -/
def schemaReturnsV (s : SchemaProc) : List String :=
  match descendFirst s.data s.params with
  | some (.vdict es) => es.filterMap (fun p => match p.1 with
      | .vstr k => some k
      | _ => none)
  | some _ => [s.label]
  | none => []

/-- Nested lookup along a key path, the specification-side description of a
schema `get` chain ("values reproducing a declared key path"). -/
def getPath : Val → List Val → Option Val
  | d, [] => some d
  | .vdict es, k :: ks => (dictGet es k).bind (fun d2 => getPath d2 ks)
  | _, _ :: _ => none

/-!
Family A: the `Sequence`/`ModelSequence` and `ModelLayer` draft
(`base.py`, `structure.py`, `layer.py`).  Sequences contain layers (and, in
`base.py`, processors); layers contain processors and sequences.  The
embedding uses one component type with both container flavours.
-/

/-- Resolution state of the `hidden` constructor argument (`hidden_param`):
`True`, `False`, or an explicit list of names. -/
inductive HParam where
  | hTrue
  | hFalse
  | hList (l : List String)
deriving Repr, DecidableEq

/-- Model component of the sequence/layer draft. -/
inductive MComp where
  | fproc (hp : HParam) (f : FuncProc)
  | sproc (hp : HParam) (s : SchemaProc)
  | mseq (label : String) (tags : List String) (hp : HParam) (members : List MComp)
  | mlayer (label : String) (tags : List String) (hp : HParam) (members : List MComp)

/-- Hidden resolution for a leaf processor (`BaseCallable.hidden`,
`base.py` lines 162-173): `True` hides every return, `False` hides nothing,
a list hides exactly the listed names. -/
def procHidden (hp : HParam) (rets : List String) : List String :=
  match hp with
  | .hTrue => rets
  | .hFalse => []
  | .hList l => l

/-- Container hidden resolution (`BaseContainer.hidden`, `base.py` lines
264-279) expressed on the collected member name lists: with
`hidden_param=True` the property returns `all_returns` directly, without
adding the hidden names of members; otherwise the base list is extended with
every member's hidden names, and `list(set(...))` of the result is
returned. -/
def resolveHidden (hp : HParam) (returnsAll hiddenAll : List String) : List String :=
  match hp with
  | .hTrue => pySet returnsAll
  | .hFalse => pySet hiddenAll
  | .hList l => pySet (l ++ hiddenAll)

mutual

/-- Parameter property: formal argument names for a function processor,
declared schema parameters for a schema processor, `list(set(...))` of member
parameters for a layer (`layer.py` lines 42-50, `BaseContainer.all_params`),
and all member parameters minus the resolved hidden set for a sequence
(`structure.py` lines 62-67). -/
def compParamsA : MComp → List String
  | .fproc _ f => fprocParams f
  | .sproc _ s => s.params
  | .mlayer _ _ _ ms => pySet (paramsListA ms)
  | .mseq _ _ hp ms =>
    pySet ((paramsListA ms).filter
      (fun x => !(resolveHidden hp (returnsListA ms) (hiddenListA ms)).contains x))

/-- Returns property: `[label]` for a function processor, leaf keys for a
schema processor, `list(set(...))` of member returns for a layer
(`layer.py` lines 52-60, `BaseContainer.all_returns`), and all member returns
minus the resolved hidden set for a sequence (`structure.py` lines 69-74). -/
def compReturnsA : MComp → List String
  | .fproc _ f => fprocReturns f
  | .sproc _ s => schemaReturnsV s
  | .mlayer _ _ _ ms => pySet (returnsListA ms)
  | .mseq _ _ hp ms =>
    pySet ((returnsListA ms).filter
      (fun x => !(resolveHidden hp (returnsListA ms) (hiddenListA ms)).contains x))

/-- Hidden property of a component (processors per `BaseCallable.hidden`,
containers per `BaseContainer.hidden`). -/
def compHiddenA : MComp → List String
  | .fproc hp f => procHidden hp (fprocReturns f)
  | .sproc hp s => procHidden hp (schemaReturnsV s)
  | .mseq _ _ hp ms => resolveHidden hp (returnsListA ms) (hiddenListA ms)
  | .mlayer _ _ hp ms => resolveHidden hp (returnsListA ms) (hiddenListA ms)

/-- Concatenated parameter lists of a member list. -/
def paramsListA : List MComp → List String
  | [] => []
  | m :: rest => compParamsA m ++ paramsListA rest

/-- Concatenated return lists of a member list. -/
def returnsListA : List MComp → List String
  | [] => []
  | m :: rest => compReturnsA m ++ returnsListA rest

/-- Concatenated hidden lists of a member list. -/
def hiddenListA : List MComp → List String
  | [] => []
  | m :: rest => compHiddenA m ++ hiddenListA rest

end

/-- Tags of a component. -/
def compTagsP : MComp → List String
  | .fproc _ f => f.tags
  | .sproc _ s => s.tags
  | .mseq _ t _ _ => t
  | .mlayer _ t _ _ => t

/-- Label of a component. -/
def compLabelP : MComp → String
  | .fproc _ f => f.label
  | .sproc _ s => s.label
  | .mseq l _ _ _ => l
  | .mlayer l _ _ _ => l

mutual

/-- Depth-first flattened processor leaves (`BaseContainer.processors_flat`). -/
def processorsFlatA : MComp → List MComp
  | .fproc hp f => [.fproc hp f]
  | .sproc hp s => [.sproc hp s]
  | .mseq _ _ _ ms => flatProcsA ms
  | .mlayer _ _ _ ms => flatProcsA ms

/-- Flattened processor leaves of a member list. -/
def flatProcsA : List MComp → List MComp
  | [] => []
  | m :: rest => processorsFlatA m ++ flatProcsA rest

end

/-- Unique tags over flattened processors (`BaseContainer.all_tags`). -/
def allTagsA (procs : List MComp) : List String :=
  pySet (procs.flatMap compTagsP)

/-- Processors carrying a tag, in flattened order (`BaseContainer.tagged`). -/
def taggedProcsA (procs : List MComp) (tag : String) : List MComp :=
  procs.filter (fun p => (compTagsP p).contains tag)

/-- Dict comprehension `{p.label: returns[p.label] for p in processors}`; a
label absent from the result set raises KeyError, uncaught by analyze. -/
def buildGroupGo (returns : Dict) : List MComp → Dict → Except Err Dict
  | [], acc => .ok acc
  | p :: rest, acc =>
    match dictGet returns (.vstr (compLabelP p)) with
    | some v => buildGroupGo returns rest (dictSet acc (.vstr (compLabelP p)) v)
    | none => .error (.keyError (compLabelP p))

/-- Tag group mapping built by the layer analyze tag loop. -/
def buildGroup (procs : List MComp) (returns : Dict) : Except Err Dict :=
  buildGroupGo returns procs []

/-- Tag aggregation loop of `ModelLayer.analyze` (`structure.py` lines
412-417, `layer.py` lines 313-318): for each tag in turn, build the group
mapping over the tagged processors; if the tag already names an entry of the
result set, that entry must be a dictionary and is updated in place
(a non-dictionary raises AttributeError), otherwise the group is inserted
under the tag. -/
def tagGo (procs : List MComp) : List String → Dict → Except Err Dict
  | [], returns => .ok returns
  | t :: ts, returns =>
    match buildGroup (taggedProcsA procs t) returns with
    | .error e => .error e
    | .ok g =>
      match dictGet returns (.vstr t) with
      | some (.vdict es) => tagGo procs ts (dictSet returns (.vstr t) (.vdict (dictUpdate es g)))
      | some _ => .error (.attrError t)
      | none => tagGo procs ts (dictSet returns (.vstr t) (.vdict g))

/-- Tag aggregation over all tags of the flattened processors. -/
def tagStep (procs : List MComp) (returns : Dict) : Except Err Dict :=
  tagGo procs (allTagsA procs) returns

mutual

/-- Analyze dispatch for the sequence/layer draft.  A sequence
(`Sequence.analyze`, `base.py` lines 403-427 and `structure.py` lines
170-194) initialises `returns = {}; returns.update(params)` and threads the
accumulator through its members unfiltered.  A layer (`ModelLayer.analyze`,
`structure.py` lines 389-421 and `layer.py` lines 286-322) hands each member
the incoming values filtered to the member's parameters, merges the member
results, applies tag aggregation, and returns the incoming values updated
with the merged results. -/
def analyzeA : MComp → Dict → Except Err Dict
  | .fproc _ f, vals => fprocAnalyze f vals
  | .sproc _ s, vals => schemaAnalyze s vals
  | .mseq _ _ _ ms, vals => seqGoA ms (dictUpdate [] vals)
  | .mlayer _ _ _ ms, vals =>
    match layerGoA ms vals [] with
    | .error e => .error e
    | .ok returns =>
      match tagStep (flatProcsA ms) returns with
      | .error e => .error e
      | .ok returns2 => .ok (dictUpdate vals returns2)

/-- Sequence member loop: `returns_i = member.analyze(**returns);
returns.update(returns_i)` in declared order. -/
def seqGoA : List MComp → Dict → Except Err Dict
  | [], acc => .ok acc
  | m :: rest, acc =>
    match analyzeA m acc with
    | .error e => .error e
    | .ok r => seqGoA rest (dictUpdate acc r)

/-- Layer member loop: each member is analyzed on the incoming values
filtered to its parameters (the loop never modifies `params`), and the
results are merged in declared order. -/
def layerGoA : List MComp → Dict → Dict → Except Err Dict
  | [], _, returns => .ok returns
  | m :: rest, params, returns =>
    match analyzeA m (filterParams params (compParamsA m)) with
    | .error e => .error e
    | .ok r => layerGoA rest params (dictUpdate returns r)

end

/-!
Family B: the `Container` draft (`containers.py`).  Every component carries
an `order` index; `_init_members` sorts members by order, and `analyze`
iterates the order groups produced by the `ordered` property, updating the
parameter view with accumulated results between groups.  Since members are
stored sorted by order, the groups are exactly the maximal runs of equal
order, which the embedding iterates directly; the property getters below
iterate members in stored order, which is faithful because every member is
visited exactly once and `sorted(set(...))` canonicalises the collected name
lists regardless of visit order.
-/

/-- Component of the `containers.py` draft: processors and generic
containers, each with an order index and a hidden parameter. -/
inductive CComp where
  | cfproc (ord : Nat) (hp : HParam) (f : FuncProc)
  | csproc (ord : Nat) (hp : HParam) (s : SchemaProc)
  | ccont (ord : Nat) (hp : HParam) (members : List CComp)

/-- Order index of a component (the `order` attribute consulted by
`Container.ordered`). -/
def compOrd : CComp → Nat
  | .cfproc o _ _ => o
  | .csproc o _ _ => o
  | .ccont o _ _ => o

mutual

/-- Parameter property (`Container.params`, `containers.py` lines 66-77):
collect every member's `params` and `returns` over the order groups and
return `sorted(set(params) - set(returns))`. -/
def cParamsV : CComp → List String
  | .cfproc _ _ f => fprocParams f
  | .csproc _ _ s => s.params
  | .ccont _ _ ms =>
    pySortedSet ((cParamsListV ms).filter (fun x => !(cReturnsListV ms).contains x))

/-- Returns property (`Container.returns`, `containers.py` lines 98-109):
collect every member's `returns` and `hidden` and return
`sorted(set(returns) - set(hidden))`. -/
def cReturnsV : CComp → List String
  | .cfproc _ _ f => fprocReturns f
  | .csproc _ _ s => schemaReturnsV s
  | .ccont _ _ ms =>
    pySortedSet ((cReturnsListV ms).filter (fun x => !(cHiddenListV ms).contains x))

/-- Hidden property value (`Container.hidden`, `containers.py` lines 79-96):
with `hidden_param=True` the getter returns `self.returns` (inlined below as
member returns minus member hidden, without adding the members' hidden
names); with `False` or an explicit list the base list is extended with every
member's hidden names and `sorted(set(...))` is returned.  Processors resolve
per `BaseCallable.hidden`.  This is the value of a read; the state effect of
the getter on an explicit `hidden_param` list is modelled by
`containerHiddenRead`. -/
def cHiddenV : CComp → List String
  | .cfproc _ hp f => procHidden hp (fprocReturns f)
  | .csproc _ hp s => procHidden hp (schemaReturnsV s)
  | .ccont _ hp ms =>
    match hp with
    | .hTrue => pySortedSet ((cReturnsListV ms).filter (fun x => !(cHiddenListV ms).contains x))
    | .hFalse => pySortedSet (cHiddenListV ms)
    | .hList l => pySortedSet (l ++ cHiddenListV ms)

/-- Concatenated member `params` lists. -/
def cParamsListV : List CComp → List String
  | [] => []
  | m :: rest => cParamsV m ++ cParamsListV rest

/-- Concatenated member `returns` lists. -/
def cReturnsListV : List CComp → List String
  | [] => []
  | m :: rest => cReturnsV m ++ cReturnsListV rest

/-- Concatenated member `hidden` lists. -/
def cHiddenListV : List CComp → List String
  | [] => []
  | m :: rest => cHiddenV m ++ cHiddenListV rest

end

mutual

/-- Analyze of the `containers.py` draft (`Container.analyze`, lines
189-211): iterate order groups, update the parameter view with accumulated
results before each group, hand each member the parameters filtered to its
`params` (the `_filter_params` helper lives on the missing
`ModelComponentBase`; modelled from the spec: each member receives the subset
of the parent's parameter view restricted to the member's `params`), merge
each member's result mapping into `results`, and when all groups are done
remove every resolved hidden name from `results`, returning `results`
only (the incoming values are not merged back in this draft). -/
def analyzeCV : CComp → Dict → Except Err Dict
  | .cfproc _ _ f, vals => fprocAnalyze f vals
  | .csproc _ _ s, vals => schemaAnalyze s vals
  | .ccont o hp ms, vals =>
    match contGo ms none vals [] with
    | .error e => .error e
    | .ok results => .ok (popHidden results (cHiddenV (.ccont o hp ms)))

/-- Member loop of `Container.analyze` over an order-sorted member list.
`prevOrd` remembers the order index of the previous member: when it changes a
new order group begins and `params.update(results)` runs.  (For the first
member the update is a no-op since `results` is empty.) -/
def contGo : List CComp → Option Nat → Dict → Dict → Except Err Dict
  | [], _, _, results => .ok results
  | m :: rest, prevOrd, params, results =>
    let params2 := if prevOrd = some (compOrd m) then params else dictUpdate params results
    match analyzeCV m (filterParams params2 (cParamsV m)) with
    | .error e => .error e
    | .ok r => contGo rest (some (compOrd m)) params2 (dictUpdate results r)

end

/-- State-passing embedding of the `Container.hidden` getter for a container
whose members are all processors (processor property reads have no state
effect, so only the container's own `hidden_param` can change).  With an
explicit list, `hidden = self._hidden_param` aliases the stored list and
`hidden.extend(member.hidden)` grows it in place, so the read returns the
sorted set of the extended list and leaves `_hidden_param` extended. -/
def containerHiddenRead (o : Nat) (hp : HParam) (ms : List CComp) :
    List String × CComp :=
  match hp with
  | .hTrue =>
    (pySortedSet ((cReturnsListV ms).filter (fun x => !(cHiddenListV ms).contains x)),
      .ccont o .hTrue ms)
  | .hFalse => (pySortedSet (cHiddenListV ms), .ccont o .hFalse ms)
  | .hList l =>
    (pySortedSet (l ++ cHiddenListV ms), .ccont o (.hList (l ++ cHiddenListV ms)) ms)

/-- Hidden parameter stored on a component. -/
def compHp : CComp → HParam
  | .cfproc _ hp _ => hp
  | .csproc _ hp _ => hp
  | .ccont _ hp _ => hp

/-!
Specification-side definitions: restatements of algorithm descriptions taken
from the specification text, to be compared with the source embeddings.
-/

/-- Specification wording of the sequence algorithm (section 4.4): start an
accumulator equal to the incoming values; for each member in declared order
invoke the member's analyze with the current accumulator and merge the
member's results into the accumulator before moving on. -/
def specSeqFold (ms : List MComp) (vals : Dict) : Except Err Dict :=
  ms.foldlM (fun acc m => (analyzeA m acc).map (fun r => dictUpdate acc r)) vals

/-- Specification wording of the layer algorithm (section 4.3, step 1):
every member is analyzed on the snapshot of the unmodified incoming values
restricted to the member's parameters, independently of its siblings. -/
def specLayerResults (ms : List MComp) (vals : Dict) : Except Err (List Dict) :=
  ms.mapM (fun m => analyzeA m (filterParams vals (compParamsA m)))

/-- Aggregate of names the members consume (claim C8 wording). -/
def memberConsumedA (ms : List MComp) : List String := ms.flatMap compParamsA

/-- Aggregate of names the members produce (claim C8 wording). -/
def memberProducedA (ms : List MComp) : List String := ms.flatMap compReturnsA

/-- Specification wording of the container params property: the aggregate of
names the members consume minus the aggregate of names they produce. -/
def specOutsideParams (ms : List MComp) : List String :=
  pySet ((memberConsumedA ms).filter (fun x => !(memberProducedA ms).contains x))

/-- Specification wording of the function-processor contract (claim C5):
analyze equals `{label: callable(**filtered)}` where `filtered` restricts the
value set to the declared parameter names. -/
def specFprocFiltered (f : FuncProc) (vals : Dict) : Except Err Dict :=
  (pyCall f (filterParams vals (fprocParams f))).map (fun v => [(.vstr f.label, v)])

/-- Accumulating fold of a tag-group dict comprehension over a processor
list, reading each processor's value from the result set `r`. -/
def groupFold (r : Dict) : List MComp → Dict → Dict
  | [], acc => acc
  | p :: rest, acc =>
    groupFold r rest (dictSet acc (.vstr (compLabelP p))
      ((dictGet r (.vstr (compLabelP p))).getD (.vint 0)))

/-- Pure value of a tag group `{p.label: results[p.label] for p in tagged}`
when every tagged label is present in the result set. -/
def groupOf (procs : List MComp) (t : String) (r : Dict) : Dict :=
  groupFold r (taggedProcsA procs t) []

/-!
General lemmas about the dictionary model.
-/

theorem dictHasKey_false_iff {d : Dict} {k : Val} :
    dictHasKey d k = false ↔ dictGet d k = none := by
  unfold dictHasKey dictGet
  rw [Option.map_eq_none', List.find?_eq_none]
  rw [← Bool.not_eq_true, List.any_eq_true]
  simp

theorem dictSet_of_get_none {d : Dict} {k : Val} (v : Val)
    (h : dictGet d k = none) : dictSet d k v = d ++ [(k, v)] := by
  unfold dictSet
  rw [dictHasKey_false_iff.mpr h]
  simp

theorem dictGet_append {d₁ d₂ : Dict} {k : Val} :
    dictGet (d₁ ++ d₂) k = (dictGet d₁ k).or (dictGet d₂ k) := by
  unfold dictGet
  rw [List.find?_append]
  cases List.find? (fun p => Val.beq p.1 k) d₁ <;> simp

theorem dictUpdate_nil_right (d : Dict) : dictUpdate d [] = d := rfl

theorem dictUpdate_disjoint_append :
    ∀ (other acc : Dict), (∀ p ∈ other, dictGet acc p.1 = none) →
    (dictKeys other).Nodup → dictUpdate acc other = acc ++ other
  | [], acc, _, _ => by simp [dictUpdate]
  | (k, v) :: rest, acc, hdis, hnd => by
    have hk : dictGet acc k = none := hdis (k, v) (by simp)
    have hset : dictSet acc k v = acc ++ [(k, v)] := dictSet_of_get_none v hk
    have hnd2 : (dictKeys rest).Nodup := (List.nodup_cons.mp hnd).2
    have hknotin : k ∉ dictKeys rest := (List.nodup_cons.mp hnd).1
    have hdis2 : ∀ p ∈ rest, dictGet (acc ++ [(k, v)]) p.1 = none := by
      intro p hp
      rw [dictGet_append]
      rw [hdis p (by simp [hp])]
      have hne : Val.beq k p.1 = false := by
        rw [← Bool.not_eq_true, Val.beq_iff]
        intro hkk
        exact hknotin (hkk ▸ List.mem_map_of_mem (·.1) hp)
      simp [dictGet, List.find?, hne]
    calc dictUpdate acc ((k, v) :: rest)
        = dictUpdate (dictSet acc k v) rest := by simp [dictUpdate]
      _ = dictUpdate (acc ++ [(k, v)]) rest := by rw [hset]
      _ = (acc ++ [(k, v)]) ++ rest := dictUpdate_disjoint_append rest _ hdis2 hnd2
      _ = acc ++ ((k, v) :: rest) := by simp

theorem dictUpdate_nil_left {d : Dict} (h : (dictKeys d).Nodup) :
    dictUpdate [] d = d := by
  have := dictUpdate_disjoint_append d [] (by intro p _; rfl) h
  simpa using this

theorem popHidden_not_mem {d : Dict} {hs : List String} {x : String}
    (hx : x ∈ hs) : Val.vstr x ∉ dictKeys (popHidden d hs) := by
  intro hmem
  unfold dictKeys at hmem
  obtain ⟨p, hp, hpk⟩ := List.mem_map.mp hmem
  have := (List.mem_filter.mp hp).2
  rw [Bool.not_eq_true'] at this
  rw [← Bool.not_eq_true, List.any_eq_true] at this
  push_neg at this
  have h2 := this x hx
  rw [← hpk] at h2
  simp [Val.beq_refl] at h2

/-!
Claim C1: sequence threading.
-/

theorem seqGoA_eq_specSeqFold : ∀ (ms : List MComp) (acc : Dict),
    seqGoA ms acc = specSeqFold ms acc
  | [], _ => rfl
  | m :: rest, acc => by
    rw [seqGoA, specSeqFold, List.foldlM_cons]
    cases h : analyzeA m acc with
    | error e => rfl
    | ok r => exact seqGoA_eq_specSeqFold rest (dictUpdate acc r)

/-- Producer used by the concrete sequence scenario: no parameters, returns
the value 7 under the name "a". -/
def paEx : FuncProc := ⟨"a", [], [], fun _ => .vint 7⟩

/-- Consumer used by the concrete sequence scenario: its only parameter is
the name "a" produced by the previous member; returns its input plus one. -/
def pbEx : FuncProc :=
  ⟨"b", [], ["a"], fun args => match args with
    | [Val.vint n] => .vint (n + 1)
    | _ => .vint 0⟩

/-- Layer wrapping the producer. -/
def layer1Ex : MComp := .mlayer "l1" [] .hFalse [.fproc .hFalse paEx]

/-- Layer wrapping the consumer. -/
def layer2Ex : MComp := .mlayer "l2" [] .hFalse [.fproc .hFalse pbEx]

/-- Two-member sequence: producer layer then consumer layer. -/
def seqEx : MComp := .mseq "s" [] .hFalse [layer1Ex, layer2Ex]

/-- The same sequence with the producer member removed. -/
def seqExDrop : MComp := .mseq "s" [] .hFalse [layer2Ex]

/-- C1: for every Sequence container and input value set (with distinct
names), analyze starts an accumulator equal to the incoming values and folds
over the members in declared order, invoking each member's analyze on the
current accumulator and merging the member's result mapping into the
accumulator before the next member runs; consequently, in a concrete
two-member sequence whose second member's only parameter is the name returned
by the first, evaluation threads the value forward by name and succeeds,
while removing the first member makes the second fail with the
missing-parameter error naming that parameter. -/
theorem seq_analyze_threads_accumulator :
    (∀ (label : String) (tags : List String) (hp : HParam) (ms : List MComp) (vals : Dict),
      (dictKeys vals).Nodup →
      analyzeA (.mseq label tags hp ms) vals = specSeqFold ms vals)
    ∧ analyzeA seqEx [] = .ok [(.vstr "a", .vint 7), (.vstr "b", .vint 8)]
    ∧ analyzeA seqExDrop [] = .error (.missingParam "a") := by
  refine ⟨?_, by decide, by decide⟩
  intro label tags hp ms vals h
  show seqGoA ms (dictUpdate [] vals) = specSeqFold ms vals
  rw [dictUpdate_nil_left h, seqGoA_eq_specSeqFold]

/-- Witness for C1: the universally quantified part applied at the concrete
two-member sequence and a concrete value set with distinct keys. -/
theorem seq_analyze_threads_accumulator_witness :
    (dictKeys [((Val.vstr "z"), Val.vint 3)]).Nodup
    ∧ analyzeA (.mseq "s" [] .hFalse [layer1Ex, layer2Ex]) [((Val.vstr "z"), Val.vint 3)]
      = specSeqFold [layer1Ex, layer2Ex] [((Val.vstr "z"), Val.vint 3)] :=
  ⟨by decide,
    seq_analyze_threads_accumulator.1 "s" [] .hFalse [layer1Ex, layer2Ex]
      [((Val.vstr "z"), Val.vint 3)] (by decide)⟩

/-!
Claim C2: layer members receive snapshots of the unmodified incoming values.
-/

theorem layerGoA_eq_specLayerResults : ∀ (ms : List MComp) (vals r0 : Dict),
    layerGoA ms vals r0 =
      match specLayerResults ms vals with
      | .ok rs => .ok (rs.foldl dictUpdate r0)
      | .error e => .error e
  | [], _, _ => rfl
  | m :: rest, vals, r0 => by
    rw [layerGoA]
    simp only [specLayerResults, List.mapM_cons]
    cases h : analyzeA m (filterParams vals (compParamsA m)) with
    | error e => rfl
    | ok r =>
      have ih := layerGoA_eq_specLayerResults rest vals (dictUpdate r0 r)
      simp only [specLayerResults] at ih
      cases h2 : rest.mapM (fun m => analyzeA m (filterParams vals (compParamsA m))) with
      | error e2 => rw [h2] at ih; exact ih
      | ok rs => rw [h2] at ih; exact ih

/-- C2: for every Layer, the member loop is equivalent to analyzing every
member independently on the snapshot of the unmodified incoming values
restricted by name intersection to that member's parameters, and merging the
results in declared order — no member's input contains or depends on sibling
results; moreover each filtered input is a sub-collection of the incoming
value set, and the layer analyze is that loop followed by tag aggregation and
the final merge into the incoming values. -/
theorem layer_members_snapshot_inputs :
    (∀ (ms : List MComp) (vals r0 : Dict),
      layerGoA ms vals r0 =
        match specLayerResults ms vals with
        | .ok rs => .ok (rs.foldl dictUpdate r0)
        | .error e => .error e)
    ∧ (∀ (label : String) (tags : List String) (hp : HParam) (ms : List MComp) (vals : Dict),
      analyzeA (.mlayer label tags hp ms) vals =
        match layerGoA ms vals [] with
        | .error e => .error e
        | .ok returns =>
          match tagStep (flatProcsA ms) returns with
          | .error e => .error e
          | .ok returns2 => .ok (dictUpdate vals returns2))
    ∧ (∀ (d : Dict) (ps : List String), (filterParams d ps).Sublist d) :=
  ⟨layerGoA_eq_specLayerResults, fun _ _ _ _ _ => rfl, fun d _ => List.filter_sublist d⟩

/-!
Claim C3: comparison actions take the first key satisfying the comparator in
stored order, and raise the schema lookup error when every key fails.
-/

theorem compScan_eq_find : ∀ (es : List (Val × Val)) (param : String) (c : SAction)
    (v : Val) (n : Int), toNum v = some n →
    (∀ q ∈ es, (toNum q.1).isSome = true) →
    compScan param c v es =
      match es.find? (fun q => match toNum q.1 with
        | some b => cmpTest c n b
        | none => false) with
      | some q => .ok q.2
      | none => .error (.schemaLookup param)
  | [], _, _, _, _, _, _ => rfl
  | (k, d) :: rest, param, c, v, n, hv, hk => by
    have hkk : (toNum k).isSome = true := hk (k, d) (by simp)
    obtain ⟨b, hb⟩ := Option.isSome_iff_exists.mp hkk
    have hred : compScan param c v ((k, d) :: rest) =
        if cmpTest c n b then Except.ok d else compScan param c v rest := by
      rw [compScan, hv, hb]
    rw [hred]
    by_cases hc : cmpTest c n b = true
    · rw [if_pos hc, List.find?_cons_of_pos _ (by simpa [hb] using hc)]
    · rw [if_neg hc, List.find?_cons_of_neg _ (by simpa [hb] using hc)]
      exact compScan_eq_find rest param c v n hv (fun q hq => hk q (by simp [hq]))

theorem schemaAnalyze_comparison (label : String) (tags : List String) (p : String)
    (c : SAction) (es : List (Val × Val)) (vals : Dict) (v : Val) (n : Int)
    (hc : c ≠ .get) (hv : dictGet vals (.vstr p) = some v) (hn : toNum v = some n)
    (hk : ∀ q ∈ es, (toNum q.1).isSome = true) :
    schemaAnalyze ⟨label, tags, [p], [c], .vdict es⟩ vals =
      match es.find? (fun q => match toNum q.1 with
        | some b => cmpTest c n b
        | none => false) with
      | some q => .ok (schemaFinalize label q.2)
      | none => .error (.schemaLookup p) := by
  have hstep : schemaStep p c v (.vdict es) = compScan p c v es := by
    cases c
    · exact absurd rfl hc
    · rfl
    · rfl
    · rfl
    · rfl
  have hgo1 : schemaGo vals [(p, c)] (.vdict es) =
      match schemaStep p c v (.vdict es) with
      | Except.ok d => schemaGo vals [] d
      | Except.error e => Except.error e := by
    rw [schemaGo, hv]
  rw [hstep, compScan_eq_find es p c v n hn hk] at hgo1
  have hgo : schemaGo vals [(p, c)] (.vdict es) =
      match es.find? (fun q => match toNum q.1 with
        | some b => cmpTest c n b
        | none => false) with
      | some q => .ok q.2
      | none => .error (.schemaLookup p) := by
    rw [hgo1]
    cases es.find? (fun q => match toNum q.1 with
      | some b => cmpTest c n b
      | none => false) <;> rfl
  change (match schemaGo vals [(p, c)] (.vdict es) with
    | Except.ok d => Except.ok (schemaFinalize label d)
    | Except.error e => Except.error e) = _
  rw [hgo]
  cases es.find? (fun q => match toNum q.1 with
    | some b => cmpTest c n b
    | none => false) <;> rfl

/-- C3: a comparison step of schema analyze converts the current mapping's
keys to numbers and tests them in stored insertion order against the
parameter value, descending into the value of the first key the comparator
accepts, and raising the schema lookup error when every key fails; for a
single-parameter comparison schema the whole analyze follows the same
first-match rule on the stored keys. -/
theorem schema_comparison_first_match :
    (∀ (es : List (Val × Val)) (param : String) (c : SAction) (v : Val) (n : Int),
      toNum v = some n →
      (∀ q ∈ es, (toNum q.1).isSome = true) →
      compScan param c v es =
        match es.find? (fun q => match toNum q.1 with
          | some b => cmpTest c n b
          | none => false) with
        | some q => .ok q.2
        | none => .error (.schemaLookup param))
    ∧ (∀ (label : String) (tags : List String) (p : String) (c : SAction)
        (es : List (Val × Val)) (vals : Dict) (v : Val) (n : Int),
      c ≠ .get → dictGet vals (.vstr p) = some v → toNum v = some n →
      (∀ q ∈ es, (toNum q.1).isSome = true) →
      schemaAnalyze ⟨label, tags, [p], [c], .vdict es⟩ vals =
        match es.find? (fun q => match toNum q.1 with
          | some b => cmpTest c n b
          | none => false) with
        | some q => .ok (schemaFinalize label q.2)
        | none => .error (.schemaLookup p)) :=
  ⟨compScan_eq_find, schemaAnalyze_comparison⟩

/-- Witness for C3: the boundary-key example of the specification.  With
keys stored as `{0: "low", 10000: "high"}` and `aadt=15000` under `gte`, the
first key satisfying `15000 >= key` in stored order is `0`, so analyze
returns "low"; with the value `-1`, no key satisfies and the schema lookup
error is raised. -/
theorem schema_comparison_first_match_witness :
    schemaAnalyze ⟨"aadt_class", [], ["aadt"], [.gte],
        .vdict [(.vint 0, .vstr "low"), (.vint 10000, .vstr "high")]⟩
      [(.vstr "aadt", .vint 15000)] = .ok [(.vstr "aadt_class", .vstr "low")]
    ∧ schemaAnalyze ⟨"aadt_class", [], ["aadt"], [.gte],
        .vdict [(.vint 0, .vstr "low"), (.vint 10000, .vstr "high")]⟩
      [(.vstr "aadt", .vint (-1))] = .error (.schemaLookup "aadt") :=
  ⟨(schema_comparison_first_match.2 "aadt_class" [] "aadt" .gte
      [(.vint 0, .vstr "low"), (.vint 10000, .vstr "high")]
      [(.vstr "aadt", .vint 15000)] (.vint 15000) 15000
      (by decide) (by decide) (by decide) (by decide)).trans (by decide),
    (schema_comparison_first_match.2 "aadt_class" [] "aadt" .gte
      [(.vint 0, .vstr "low"), (.vint 10000, .vstr "high")]
      [(.vstr "aadt", .vint (-1))] (.vint (-1)) (-1)
      (by decide) (by decide) (by decide) (by decide)).trans (by decide)⟩

/-!
Claim C4: a schema processor whose actions are all `get` returns exactly the
leaf at the declared key path, verbatim for a mapping leaf and wrapped as
`{label: leaf}` for a scalar leaf.
-/

theorem schemaGo_getPath : ∀ (params : List String) (vals : Dict) (data : Val)
    (ks : List Val) (leaf : Val),
    params.mapM (fun p => dictGet vals (.vstr p)) = some ks →
    getPath data ks = some leaf →
    schemaGo vals (params.zip (params.map (fun _ => SAction.get))) data = .ok leaf
  | [], vals, data, ks, leaf, hm, hp => by
    have hks : ks = [] := by
      have h2 : (some [] : Option (List Val)) = some ks := hm
      exact (Option.some_inj.mp h2).symm
    subst hks
    rw [getPath] at hp
    have : data = leaf := Option.some_inj.mp hp
    subst this
    rfl
  | p :: ps, vals, data, ks, leaf, hm, hp => by
    rw [List.mapM_cons] at hm
    cases hg : dictGet vals (.vstr p) with
    | none => rw [hg] at hm; simp at hm
    | some k =>
      rw [hg] at hm
      cases hrest : ps.mapM (fun q => dictGet vals (.vstr q)) with
      | none => rw [hrest] at hm; simp at hm
      | some ks2 =>
        rw [hrest] at hm
        have hks : k :: ks2 = ks := by simpa using hm
        subst hks
        cases data with
        | vint n => simp [getPath] at hp
        | vstr s => simp [getPath] at hp
        | vdict es =>
          simp only [getPath] at hp
          cases hd : dictGet es k with
          | none => rw [hd] at hp; simp at hp
          | some d2 =>
            rw [hd] at hp
            simp only [Option.some_bind] at hp
            have hrec := schemaGo_getPath ps vals d2 ks2 leaf hrest hp
            have hred : schemaGo vals ((p :: ps).zip ((p :: ps).map (fun _ => SAction.get)))
                (.vdict es) =
                schemaGo vals (ps.zip (ps.map (fun _ => SAction.get))) d2 := by
              show (match dictGet vals (.vstr p) with
                | none => Except.error (Err.missingParam p)
                | some v =>
                  match schemaStep p SAction.get v (.vdict es) with
                  | Except.ok d => schemaGo vals (ps.zip (ps.map (fun _ => SAction.get))) d
                  | Except.error e => Except.error e) = _
              rw [hg]
              show (match schemaStep p SAction.get k (.vdict es) with
                | Except.ok d => schemaGo vals (ps.zip (ps.map (fun _ => SAction.get))) d
                | Except.error e => Except.error e) = _
              have hstep : schemaStep p SAction.get k (.vdict es) = Except.ok d2 := by
                rw [schemaStep, hd]
              rw [hstep]
            rw [hred]
            exact hrec

/-- C4: for a schema processor all of whose declared actions are `get`, if
the value set reproduces a key path that reaches a leaf of the data, analyze
returns exactly that leaf — verbatim when the leaf is a mapping, and wrapped
as `{label: leaf}` (`schemaFinalize`) when the leaf is a scalar. -/
theorem schema_get_path_roundtrip (label : String) (tags : List String)
    (params : List String) (data : Val) (vals : Dict) (ks : List Val) (leaf : Val)
    (hm : params.mapM (fun p => dictGet vals (.vstr p)) = some ks)
    (hp : getPath data ks = some leaf) :
    schemaAnalyze ⟨label, tags, params, params.map (fun _ => SAction.get), data⟩ vals
      = .ok (schemaFinalize label leaf) := by
  change (match schemaGo vals (params.zip (params.map (fun _ => SAction.get))) data with
    | Except.ok d => Except.ok (schemaFinalize label d)
    | Except.error e => Except.error e) = _
  rw [schemaGo_getPath params vals data ks leaf hm hp]

/-- Witness for C4: the ticket-cost example of the specification.  The leaf
at path Chicago/Business is the scalar 450, so analyze returns
`{ticket_cost: 450}`; a second application reaches the mapping leaf
`{x: 100, y: 200}` of the docstring schema and returns it verbatim. -/
theorem schema_get_path_roundtrip_witness :
    schemaAnalyze ⟨"ticket_cost", [], ["city", "class"],
        [SAction.get, SAction.get],
        .vdict [(.vstr "Chicago",
          .vdict [(.vstr "Economy", .vint 220), (.vstr "Business", .vint 450)])]⟩
      [(.vstr "city", .vstr "Chicago"), (.vstr "class", .vstr "Business")]
      = .ok [(.vstr "ticket_cost", .vint 450)]
    ∧ schemaAnalyze ⟨"schema_1", [], ["lookup_param"], [SAction.get],
        .vdict [(.vstr "a", .vdict [(.vstr "x", .vint 1), (.vstr "y", .vint 2)]),
          (.vstr "b", .vdict [(.vstr "x", .vint 100), (.vstr "y", .vint 200)])]⟩
      [(.vstr "lookup_param", .vstr "b")]
      = .ok [(.vstr "x", .vint 100), (.vstr "y", .vint 200)] := by
  constructor
  · have h := schema_get_path_roundtrip "ticket_cost" [] ["city", "class"]
      (.vdict [(.vstr "Chicago",
        .vdict [(.vstr "Economy", .vint 220), (.vstr "Business", .vint 450)])])
      [(.vstr "city", .vstr "Chicago"), (.vstr "class", .vstr "Business")]
      [.vstr "Chicago", .vstr "Business"] (.vint 450) (by decide) (by decide)
    exact h.trans (by decide)
  · have h := schema_get_path_roundtrip "schema_1" [] ["lookup_param"]
      (.vdict [(.vstr "a", .vdict [(.vstr "x", .vint 1), (.vstr "y", .vint 2)]),
        (.vstr "b", .vdict [(.vstr "x", .vint 100), (.vstr "y", .vint 200)])])
      [(.vstr "lookup_param", .vstr "b")]
      [.vstr "b"] (.vdict [(.vstr "x", .vint 100), (.vstr "y", .vint 200)])
      (by decide) (by decide)
    exact h.trans (by decide)

/-!
Claim C5: function processor contract.  The params/returns clauses hold, but
analyze hands the full value set to the callable without filtering: extra
names raise the keyword TypeError instead of being dropped.
-/

/-- Concrete function processor with one declared parameter "x". -/
def cexF : FuncProc := ⟨"f", [], ["x"], fun args => args.headD (.vint 0)⟩

/-- Concrete value set with the declared parameter and one extra name. -/
def cexVals : Dict := [(.vstr "x", .vint 1), (.vstr "y", .vint 2)]

/-- Counterexample for C5: on a value set carrying an extra name "y", the
claimed equation `analyze(values) = {label: callable(**filtered)}` fails —
the filtered call yields `{f: 1}` but the code passes the unfiltered value
set to the callable, which rejects the unexpected keyword "y". -/
theorem fproc_filtered_claim_false :
    specFprocFiltered cexF cexVals = .ok [(.vstr "f", .vint 1)]
    ∧ fprocAnalyze cexF cexVals = .error (.typeError "y")
    ∧ fprocAnalyze cexF cexVals ≠ specFprocFiltered cexF cexVals :=
  ⟨by decide, by decide, by decide⟩

/-- C5 (amended): params equals the wrapped callable's formal argument names
in declared order and returns equals `[label]`; analyze passes the incoming
value set to the callable unfiltered, so whenever the value set's names are
exactly (or a subset binding all of) the declared parameters — in particular
whenever it already equals its own restriction to the declared parameters —
`analyze(values)` equals `{label: callable(**values)}`, the value bound by
name for each formal argument; extra names are not ignored but raise the
keyword TypeError. -/
theorem fproc_analyze_unfiltered (f : FuncProc) (vals : Dict)
    (hkeys : ∀ q ∈ vals, ∃ s, q.1 = Val.vstr s ∧ s ∈ f.argNames)
    (hall : ∀ a ∈ f.argNames, (dictGet vals (.vstr a)).isSome = true) :
    fprocParams f = f.argNames
    ∧ fprocReturns f = [f.label]
    ∧ filterParams vals (fprocParams f) = vals
    ∧ fprocAnalyze f vals =
      .ok [(.vstr f.label,
        f.impl (f.argNames.map (fun a => (dictGet vals (.vstr a)).getD (.vint 0))))] := by
  refine ⟨rfl, rfl, ?_, ?_⟩
  · unfold filterParams fprocParams
    rw [List.filter_eq_self]
    intro q hq
    obtain ⟨s, hqs, hs⟩ := hkeys q hq
    rw [List.any_eq_true]
    exact ⟨s, hs, by rw [hqs]; exact Val.beq_refl _⟩
  · unfold fprocAnalyze pyCall
    have hfind1 : vals.find? (fun p => match p.1 with
        | .vstr s => !f.argNames.contains s
        | _ => true) = none := by
      rw [List.find?_eq_none]
      intro q hq
      obtain ⟨s, hqs, hs⟩ := hkeys q hq
      rw [hqs]
      simp [hs]
    have hfind2 : f.argNames.find? (fun a => (dictGet vals (.vstr a)).isNone) = none := by
      rw [List.find?_eq_none]
      intro a ha
      rw [Bool.not_eq_true, Option.isNone_eq_false_iff]
      exact hall a ha
    rw [hfind1, hfind2]
    rfl

/-- Witness for C5: the amended theorem applied to the concrete processor on
a value set whose names are exactly the declared parameter. -/
theorem fproc_analyze_unfiltered_witness :
    fprocAnalyze cexF [(.vstr "x", .vint 1)] =
      .ok [(.vstr "f",
        cexF.impl (cexF.argNames.map
          (fun a => (dictGet [(.vstr "x", .vint 1)] (.vstr a)).getD (.vint 0))))] := by
  have h := fproc_analyze_unfiltered cexF [(.vstr "x", .vint 1)]
    (by
      intro q hq
      have hq2 : q = ((.vstr "x" : Val), (.vint 1 : Val)) := by simpa using hq
      subst hq2
      exact ⟨"x", rfl, by decide⟩)
    (by decide)
  exact h.2.2.2

/-!
Claim C6: hidden resolution and removal in the `containers.py` draft.  With
`hidden_param` equal to `False` or an explicit list, member-hidden names
propagate into the container's resolved hidden set and analyze removes every
resolved hidden name from its result.  With `hidden_param=True` the getter
returns `self.returns`, which excludes member-hidden names, so a name marked
hidden by a processor member can surface in the container's result.
-/

theorem mem_cHiddenListV {x : String} : ∀ {ms : List CComp} {m : CComp},
    m ∈ ms → x ∈ cHiddenV m → x ∈ cHiddenListV ms := by
  intro ms
  induction ms with
  | nil => intro m h; cases h
  | cons a rest ih =>
    intro m hm hx
    rw [cHiddenListV]
    rcases List.mem_cons.mp hm with h | h
    · subst h; exact List.mem_append_left _ hx
    · exact List.mem_append_right _ (ih h hx)

/-- C6 (amended): for every container whose `hidden_param` is `False` or an
explicit list, the resolved hidden set includes every name any direct member
marks hidden (and hence, hereditarily through such containers, every name
marked hidden below); and every container's analyze removes every name of its
resolved hidden set from the result set it returns.  (With `hidden_param =
True` the resolved set is the container's returns, which omits member-hidden
names — see the counterexample.) -/
theorem container_hidden_propagation :
    (∀ (o : Nat) (hp : HParam) (ms : List CComp) (m : CComp) (x : String),
      hp ≠ HParam.hTrue → m ∈ ms → x ∈ cHiddenV m →
      x ∈ cHiddenV (.ccont o hp ms))
    ∧ (∀ (o : Nat) (hp : HParam) (ms : List CComp) (vals results : Dict) (x : String),
      analyzeCV (.ccont o hp ms) vals = .ok results →
      x ∈ cHiddenV (.ccont o hp ms) →
      Val.vstr x ∉ dictKeys results) := by
  constructor
  · intro o hp ms m x hne hm hx
    cases hp with
    | hTrue => exact absurd rfl hne
    | hFalse =>
      show x ∈ pySortedSet (cHiddenListV ms)
      exact mem_pySortedSet.mpr (mem_cHiddenListV hm hx)
    | hList l =>
      show x ∈ pySortedSet (l ++ cHiddenListV ms)
      exact mem_pySortedSet.mpr (List.mem_append_right _ (mem_cHiddenListV hm hx))
  · intro o hp ms vals results x han hx
    revert han
    show (match contGo ms none vals [] with
      | .error e => (.error e : Except Err Dict)
      | .ok r0 => .ok (popHidden r0 (cHiddenV (.ccont o hp ms)))) = .ok results → _
    cases hc : contGo ms none vals [] with
    | error e => intro h; exact absurd h (by simp)
    | ok r0 =>
      intro h
      have hr : results = popHidden r0 (cHiddenV (.ccont o hp ms)) :=
        (Option.some_inj.mp (congrArg (fun z => match z with
          | Except.ok d => some d
          | Except.error _ => none) h)).symm
      rw [hr]
      exact popHidden_not_mem hx

/-- Processor returning 5 under the name "x" and marking "x" hidden. -/
def pHiddenX : FuncProc := ⟨"x", [], [], fun _ => .vint 5⟩

/-- Container with `hidden_param=True` holding the hidden-marking processor. -/
def cex6 : CComp := .ccont 0 .hTrue [.cfproc 0 (.hList ["x"]) pHiddenX]

/-- Counterexample for C6: the processor member marks "x" hidden, yet with
`hidden_param=True` the container's resolved hidden set (its returns) does
not include "x", and the container's analyze returns a result that still
contains "x" — the hidden name surfaces to the ancestor. -/
theorem container_hidden_true_drops_member_hidden :
    "x" ∈ cHiddenV (.cfproc 0 (.hList ["x"]) pHiddenX)
    ∧ "x" ∉ cHiddenV cex6
    ∧ analyzeCV cex6 [] = .ok [(.vstr "x", .vint 5)] :=
  ⟨by decide, by decide, by decide⟩

/-- Container with `hidden_param=False` holding the hidden-marking processor. -/
def cont6w : CComp := .ccont 0 .hFalse [.cfproc 0 (.hList ["x"]) pHiddenX]

/-- Witness for C6: the amended theorem applied at a concrete container with
`hidden_param=False`, whose resolved hidden set picks up the member's hidden
name, and whose analyze output (computed to be empty) excludes it. -/
theorem container_hidden_propagation_witness :
    "x" ∈ cHiddenV (.ccont 0 .hFalse [.cfproc 0 (.hList ["x"]) pHiddenX])
    ∧ Val.vstr "x" ∉ dictKeys ([] : Dict) :=
  ⟨container_hidden_propagation.1 0 .hFalse [.cfproc 0 (.hList ["x"]) pHiddenX]
      (.cfproc 0 (.hList ["x"]) pHiddenX) "x" (by decide)
      (List.mem_singleton.mpr rfl) (by decide),
    container_hidden_propagation.2 0 .hFalse [.cfproc 0 (.hList ["x"]) pHiddenX]
      [] [] "x" (by decide) (by decide)⟩

/-!
Claim C7: tag grouping.
-/

theorem buildGroupGo_ok : ∀ (l : List MComp) (r acc : Dict),
    (∀ p ∈ l, (dictGet r (.vstr (compLabelP p))).isSome = true) →
    buildGroupGo r l acc = .ok (groupFold r l acc)
  | [], _, _, _ => rfl
  | p :: rest, r, acc, hl => by
    obtain ⟨v, hv⟩ := Option.isSome_iff_exists.mp (hl p (by simp))
    have step : buildGroupGo r (p :: rest) acc
        = buildGroupGo r rest (dictSet acc (.vstr (compLabelP p)) v) := by
      rw [buildGroupGo, hv]
    rw [step, buildGroupGo_ok rest r _ (fun q hq => hl q (by simp [hq]))]
    rw [groupFold, hv]
    rfl

theorem buildGroup_ok (procs : List MComp) (t : String) (r : Dict)
    (hl : ∀ p ∈ procs, (dictGet r (.vstr (compLabelP p))).isSome = true) :
    buildGroup (taggedProcsA procs t) r = .ok (groupOf procs t r) :=
  buildGroupGo_ok (taggedProcsA procs t) r []
    (fun p hp => hl p (List.mem_filter.mp hp).1)

theorem groupFold_congr : ∀ (l : List MComp) (acc r r2 : Dict),
    (∀ p ∈ l, dictGet r2 (.vstr (compLabelP p)) = dictGet r (.vstr (compLabelP p))) →
    groupFold r2 l acc = groupFold r l acc
  | [], _, _, _, _ => rfl
  | p :: rest, acc, r, r2, h => by
    rw [groupFold, groupFold, h p (by simp)]
    exact groupFold_congr rest _ r r2 (fun q hq => h q (by simp [hq]))

theorem groupOf_congr (procs : List MComp) (t : String) (r r2 : Dict)
    (h : ∀ p ∈ procs, dictGet r2 (.vstr (compLabelP p)) = dictGet r (.vstr (compLabelP p))) :
    groupOf procs t r2 = groupOf procs t r :=
  groupFold_congr (taggedProcsA procs t) [] r r2
    (fun p hp => h p (List.mem_filter.mp hp).1)

theorem dictGet_cons_self {k v : Val} {d : Dict} : dictGet ((k, v) :: d) k = some v := by
  simp [dictGet, List.find?_cons, Val.beq_refl]

theorem dictGet_cons_ne {k k2 v : Val} {d : Dict} (h : Val.beq k k2 = false) :
    dictGet ((k, v) :: d) k2 = dictGet d k2 := by
  simp [dictGet, List.find?_cons, h]

theorem vstr_beq_false {t t2 : String} (h : t ≠ t2) :
    Val.beq (.vstr t) (.vstr t2) = false := by
  rw [← Bool.not_eq_true, Val.beq_iff]
  simp [h]

theorem dictGet_singleton_ne {t t2 : String} {v : Val} (h : t2 ≠ t) :
    dictGet [((.vstr t : Val), v)] (.vstr t2) = none := by
  rw [dictGet_cons_ne (vstr_beq_false (fun hh => h hh.symm))]
  rfl

theorem tagGo_spec (procs : List MComp) : ∀ (ts : List String) (r : Dict),
    ts.Nodup →
    (∀ t ∈ ts, dictGet r (.vstr t) = none) →
    (∀ p ∈ procs, (dictGet r (.vstr (compLabelP p))).isSome = true) →
    (∀ t ∈ ts, ∀ p ∈ procs, compLabelP p ≠ t) →
    tagGo procs ts r = .ok (r ++ ts.map (fun t => (.vstr t, .vdict (groupOf procs t r))))
  | [], r, _, _, _, _ => by simp [tagGo]
  | t :: ts, r, hnd, hnone, hlab, hne => by
    have hbg := buildGroup_ok procs t r hlab
    have ht : dictGet r (.vstr t) = none := hnone t (by simp)
    have step : tagGo procs (t :: ts) r
        = tagGo procs ts (dictSet r (.vstr t) (.vdict (groupOf procs t r))) := by
      rw [tagGo, hbg, ht]
    rw [step, dictSet_of_get_none _ ht]
    have hndrest : ts.Nodup := hnd.of_cons
    have htne : t ∉ ts := (List.nodup_cons.mp hnd).1
    have hnone2 : ∀ t2 ∈ ts, dictGet (r ++ [((.vstr t : Val), .vdict (groupOf procs t r))])
        (.vstr t2) = none := by
      intro t2 ht2
      rw [dictGet_append, hnone t2 (by simp [ht2]), Option.none_or]
      exact dictGet_singleton_ne (fun hh => htne (hh ▸ ht2))
    have hlab2 : ∀ p ∈ procs, (dictGet (r ++ [((.vstr t : Val), .vdict (groupOf procs t r))])
        (.vstr (compLabelP p))).isSome = true := by
      intro p hp
      obtain ⟨v, hv⟩ := Option.isSome_iff_exists.mp (hlab p hp)
      rw [dictGet_append, hv]
      rfl
    have hagree : ∀ p ∈ procs, dictGet (r ++ [((.vstr t : Val), .vdict (groupOf procs t r))])
        (.vstr (compLabelP p)) = dictGet r (.vstr (compLabelP p)) := by
      intro p hp
      obtain ⟨v, hv⟩ := Option.isSome_iff_exists.mp (hlab p hp)
      rw [dictGet_append, hv]
      rfl
    have ih := tagGo_spec procs ts (r ++ [((.vstr t : Val), .vdict (groupOf procs t r))])
      hndrest hnone2 hlab2 (fun t2 ht2 p hp => hne t2 (by simp [ht2]) p hp)
    rw [ih]
    have hmap : ts.map (fun t2 => ((.vstr t2 : Val),
        Val.vdict (groupOf procs t2 (r ++ [((.vstr t : Val), .vdict (groupOf procs t r))]))))
        = ts.map (fun t2 => ((.vstr t2 : Val), Val.vdict (groupOf procs t2 r))) :=
      List.map_congr_left (fun t2 _ => by rw [groupOf_congr procs t2 r _ hagree])
    rw [hmap]
    simp

theorem dictGet_tagMap : ∀ (ts : List String) (f : String → Val) (t : String),
    ts.Nodup → t ∈ ts →
    dictGet (ts.map (fun t2 => ((.vstr t2 : Val), f t2))) (.vstr t) = some (f t)
  | [], _, t, _, ht => absurd ht (by simp)
  | a :: rest, f, t, hnd, ht => by
    by_cases hat : a = t
    · subst hat
      rw [List.map_cons, dictGet_cons_self]
    · have htr : t ∈ rest := by
        rcases List.mem_cons.mp ht with h | h
        · exact absurd h.symm hat
        · exact h
      rw [List.map_cons, dictGet_cons_ne (vstr_beq_false hat)]
      exact dictGet_tagMap rest f t hnd.of_cons htr

/-- Processor p1 tagged "spf". -/
def p1Spf : FuncProc := ⟨"p1", ["spf"], [], fun _ => .vint 1⟩

/-- Processor p2 tagged "spf". -/
def p2Spf : FuncProc := ⟨"p2", ["spf"], [], fun _ => .vint 2⟩

/-- Layer holding the two tagged processors. -/
def layerSpf : MComp := .mlayer "L" [] .hFalse [.fproc .hFalse p1Spf, .fproc .hFalse p2Spf]

/-- C7: in the layer analyze, for each tag carried by processors under the
container (when every tagged processor's label is present in the merged
result set, no tag already names a result entry, and labels do not collide
with tag names), the tag step appends under each tag's name the mapping from
each tagged processor's label to that processor's result value, and the final
result set yields that mapping under the tag; concretely, two processors p1
and p2 both tagged "spf" produce a result entry
`spf == {"p1": value of p1, "p2": value of p2}`. -/
theorem layer_tag_grouping :
    (∀ (procs : List MComp) (r : Dict),
      (∀ p ∈ procs, (dictGet r (.vstr (compLabelP p))).isSome = true) →
      (∀ t ∈ allTagsA procs, dictGet r (.vstr t) = none) →
      (∀ t ∈ allTagsA procs, ∀ p ∈ procs, compLabelP p ≠ t) →
      tagStep procs r = .ok (r ++ (allTagsA procs).map
        (fun t => (.vstr t, .vdict (groupOf procs t r))))
      ∧ ∀ t ∈ allTagsA procs,
        dictGet (r ++ (allTagsA procs).map
          (fun t2 => (.vstr t2, .vdict (groupOf procs t2 r)))) (.vstr t)
          = some (.vdict (groupOf procs t r)))
    ∧ (analyzeA layerSpf [] = .ok [(.vstr "p1", .vint 1), (.vstr "p2", .vint 2),
        (.vstr "spf", .vdict [(.vstr "p1", .vint 1), (.vstr "p2", .vint 2)])]
      ∧ dictGet [(.vstr "p1", .vint 1), (.vstr "p2", .vint 2),
          ((.vstr "spf" : Val), Val.vdict [(.vstr "p1", .vint 1), (.vstr "p2", .vint 2)])]
          (.vstr "spf")
        = some (.vdict [(.vstr "p1", .vint 1), (.vstr "p2", .vint 2)])) := by
  refine ⟨?_, by decide, by decide⟩
  intro procs r hlab hnone hne
  have hnd : (allTagsA procs).Nodup := List.nodup_dedup _
  refine ⟨tagGo_spec procs (allTagsA procs) r hnd hnone hlab hne, ?_⟩
  intro t ht
  rw [dictGet_append, hnone t ht, Option.none_or]
  exact dictGet_tagMap (allTagsA procs) (fun t2 => .vdict (groupOf procs t2 r)) t hnd ht

/-- Witness for C7: the general tag-step theorem applied to the two tagged
processors on their merged result set. -/
theorem layer_tag_grouping_witness :
    tagStep [.fproc .hFalse p1Spf, .fproc .hFalse p2Spf]
      [(.vstr "p1", .vint 1), (.vstr "p2", .vint 2)]
      = .ok ([(.vstr "p1", .vint 1), (.vstr "p2", .vint 2)]
        ++ (allTagsA [.fproc .hFalse p1Spf, .fproc .hFalse p2Spf]).map
          (fun t => (.vstr t, .vdict (groupOf [.fproc .hFalse p1Spf, .fproc .hFalse p2Spf] t
            [(.vstr "p1", .vint 1), (.vstr "p2", .vint 2)])))) :=
  (layer_tag_grouping.1 [.fproc .hFalse p1Spf, .fproc .hFalse p2Spf]
    [(.vstr "p1", .vint 1), (.vstr "p2", .vint 2)]
    (by decide) (by decide) (by decide)).1

/-!
Claim C8: container params property.  The `containers.py` `Container.params`
is aggregate consumed minus aggregate produced; the `base.py`/`structure.py`
draft's params properties are not (no subtraction of produced names for
`BaseContainer`, subtraction of hidden instead for `Sequence`).
-/

theorem mem_cParamsListV {x : String} : ∀ {ms : List CComp},
    x ∈ cParamsListV ms ↔ ∃ m ∈ ms, x ∈ cParamsV m := by
  intro ms
  induction ms with
  | nil => simp [cParamsListV]
  | cons a rest ih => rw [cParamsListV]; simp [List.mem_append, ih]

theorem mem_cReturnsListV {x : String} : ∀ {ms : List CComp},
    x ∈ cReturnsListV ms ↔ ∃ m ∈ ms, x ∈ cReturnsV m := by
  intro ms
  induction ms with
  | nil => simp [cReturnsListV]
  | cons a rest ih => rw [cReturnsListV]; simp [List.mem_append, ih]

/-- C8 (amended): for the `containers.py` draft, a name is in a container's
`params` exactly when some member consumes it and no member produces it —
aggregate consumed minus aggregate produced.  (The `base.py`/`structure.py`
draft differs: its sequence params subtract only hidden names, not produced
names — see the counterexample.) -/
theorem container_params_consumed_minus_produced
    (o : Nat) (hp : HParam) (ms : List CComp) (x : String) :
    x ∈ cParamsV (.ccont o hp ms) ↔
      ((∃ m ∈ ms, x ∈ cParamsV m) ∧ ¬∃ m ∈ ms, x ∈ cReturnsV m) := by
  show x ∈ pySortedSet ((cParamsListV ms).filter
    (fun y => !(cReturnsListV ms).contains y)) ↔ _
  rw [mem_pySortedSet, List.mem_filter]
  constructor
  · rintro ⟨h1, h2⟩
    refine ⟨mem_cParamsListV.mp h1, ?_⟩
    intro hex
    have : x ∈ cReturnsListV ms := mem_cReturnsListV.mpr hex
    simp [this] at h2
  · rintro ⟨h1, h2⟩
    refine ⟨mem_cParamsListV.mpr h1, ?_⟩
    have : x ∉ cReturnsListV ms := fun hc => h2 (mem_cReturnsListV.mp hc)
    simp [this]

/-- Producer processor labelled "x" with no parameters (Family A). -/
def prodX : FuncProc := ⟨"x", [], [], fun _ => .vint 1⟩

/-- Consumer processor labelled "y" whose parameter is "x" (Family A). -/
def consX : FuncProc := ⟨"y", [], ["x"], fun args => args.headD (.vint 0)⟩

/-- Sequence of the `base.py` draft holding producer then consumer. -/
def seqCex8 : MComp := .mseq "s" [] .hFalse [.fproc .hFalse prodX, .fproc .hFalse consX]

/-- Counterexample for C8: in the `base.py`/`structure.py` draft, the
sequence's params property keeps the internally produced name "x"
(`params = set(all_params) - set(hidden)` subtracts hidden, not produced), so
it differs from the claimed aggregate-consumed-minus-aggregate-produced set,
which excludes "x". -/
theorem base_sequence_params_not_consumed_minus_produced :
    "x" ∈ compParamsA seqCex8
    ∧ "x" ∉ specOutsideParams [.fproc .hFalse prodX, .fproc .hFalse consX] :=
  ⟨by decide, by decide⟩

/-!
Claim C9: missing declared parameters raise the missing-parameter error and
it propagates unchanged through the containers.
-/

/-- C9: a schema processor whose first declared parameter is absent from the
handed value set raises the missing-parameter error naming it; a function
processor handed a value set drawn from its declared parameters with some
formal argument unbound raises the missing-parameter error naming the first
unbound argument; and a member error propagates unchanged through a sequence
and through a layer (no retry, no partial result). -/
theorem missing_parameter_error_propagates :
    (∀ (s : SchemaProc) (vals : Dict) (p : String) (ps : List String)
        (a : SAction) (acts : List SAction),
      s.params = p :: ps → s.actions = a :: acts →
      dictGet vals (.vstr p) = none →
      schemaAnalyze s vals = .error (.missingParam p))
    ∧ (∀ (f : FuncProc) (vals : Dict) (a : String),
      (∀ q ∈ vals, ∃ str, q.1 = Val.vstr str ∧ str ∈ f.argNames) →
      f.argNames.find? (fun b => (dictGet vals (.vstr b)).isNone) = some a →
      fprocAnalyze f vals = .error (.missingParam a))
    ∧ (∀ (label : String) (tags : List String) (hp : HParam) (m : MComp)
        (ms : List MComp) (vals : Dict) (e : Err),
      analyzeA m (dictUpdate [] vals) = .error e →
      analyzeA (.mseq label tags hp (m :: ms)) vals = .error e)
    ∧ (∀ (label : String) (tags : List String) (hp : HParam) (m : MComp)
        (ms : List MComp) (vals : Dict) (e : Err),
      analyzeA m (filterParams vals (compParamsA m)) = .error e →
      analyzeA (.mlayer label tags hp (m :: ms)) vals = .error e) := by
  refine ⟨?_, ?_, ?_, ?_⟩
  · intro s vals p ps a acts hps hacts hget
    unfold schemaAnalyze
    rw [hps, hacts]
    have hgo : schemaGo vals ((p :: ps).zip (a :: acts)) s.data
        = .error (.missingParam p) := by
      rw [List.zip_cons_cons, schemaGo, hget]
    rw [hgo]
  · intro f vals a hkeys hfind
    unfold fprocAnalyze pyCall
    have hfind1 : vals.find? (fun q => match q.1 with
        | .vstr str => !f.argNames.contains str
        | _ => true) = none := by
      rw [List.find?_eq_none]
      intro q hq
      obtain ⟨str, hqs, hs⟩ := hkeys q hq
      rw [hqs]
      simp [hs]
    rw [hfind1, hfind]
    rfl
  · intro label tags hp m ms vals e he
    show seqGoA (m :: ms) (dictUpdate [] vals) = .error e
    rw [seqGoA, he]
  · intro label tags hp m ms vals e he
    have hl : layerGoA (m :: ms) vals [] = .error e := by
      rw [layerGoA, he]
    show (match layerGoA (m :: ms) vals [] with
      | .error e2 => (.error e2 : Except Err Dict)
      | .ok returns =>
        match tagStep (flatProcsA (m :: ms)) returns with
        | .error e2 => .error e2
        | .ok returns2 => .ok (dictUpdate vals returns2)) = .error e
    rw [hl]

/-- Schema used by the missing-parameter witness. -/
def schemaCex9 : SchemaProc :=
  ⟨"ticket_cost", [], ["city"], [SAction.get], .vdict [(.vstr "Chicago", .vint 1)]⟩

/-- Witness for C9: the four clauses applied at concrete inputs — a schema
processor called without its "city" parameter, a function processor called
without its "x" parameter, and the same missing-parameter error surfacing
unchanged from a member through a sequence and through a layer. -/
theorem missing_parameter_error_propagates_witness :
    schemaAnalyze schemaCex9 [] = .error (.missingParam "city")
    ∧ fprocAnalyze cexF [] = .error (.missingParam "x")
    ∧ analyzeA (.mseq "s" [] .hFalse [.fproc .hFalse cexF]) [] = .error (.missingParam "x")
    ∧ analyzeA (.mlayer "L" [] .hFalse [.fproc .hFalse cexF]) [] = .error (.missingParam "x") := by
  have h2 : fprocAnalyze cexF [] = .error (.missingParam "x") :=
    missing_parameter_error_propagates.2.1 cexF [] "x" (by intro q hq; cases hq) (by decide)
  refine ⟨?_, h2, ?_, ?_⟩
  · exact missing_parameter_error_propagates.1 schemaCex9 [] "city" [] .get []
      rfl rfl (by decide)
  · exact missing_parameter_error_propagates.2.2.1 "s" [] .hFalse (.fproc .hFalse cexF) [] [] _
      ((by decide : fprocAnalyze cexF (dictUpdate [] []) = .error (.missingParam "x")))
  · exact missing_parameter_error_propagates.2.2.2 "L" [] .hFalse (.fproc .hFalse cexF) [] [] _
      ((by decide : fprocAnalyze cexF (filterParams [] (compParamsA (.fproc .hFalse cexF)))
        = .error (.missingParam "x")))

/-!
Claim C10: reads of the derived `hidden` property mutate the stored
`hidden_param` list (aliasing bug), though the returned values stay equal.
-/

/-- Member marking "b" hidden, used by the mutation demonstration. -/
def pHidB : CComp := .cfproc 0 (.hList ["b"]) ⟨"pb", [], [], fun _ => .vint 0⟩

/-- C10 (code bug demonstration): on a container with explicit
`hidden_param=["a"]` and a member hiding "b", one read of the `hidden`
property returns `["a", "b"]` but leaves the stored `hidden_param` extended
to `["a", "b"]` — the tree is mutated by a read; a second read returns the
same value, so repeated reads agree while the stored state has changed. -/
theorem hidden_property_read_mutates_state :
    (containerHiddenRead 0 (.hList ["a"]) [pHidB]).1 = ["a", "b"]
    ∧ compHp (containerHiddenRead 0 (.hList ["a"]) [pHidB]).2 = .hList ["a", "b"]
    ∧ compHp (containerHiddenRead 0 (.hList ["a"]) [pHidB]).2 ≠ .hList ["a"]
    ∧ (containerHiddenRead 0 (.hList ["a", "b"]) [pHidB]).1
      = (containerHiddenRead 0 (.hList ["a"]) [pHidB]).1 :=
  ⟨by decide, by decide, by decide, by decide⟩
